import Mathlib

/-!
Verification of the Olm message codec (`src/messages/inner.rs` of the
vodozemac repository).

The Rust module is embedded shallowly:

* byte buffers (`Vec<u8>`, `&[u8]`) become `List Byte` with `Byte := Fin 256`;
* the hand-rolled varint encoder (`impl Encode for u64`) becomes `encode`,
  written with an explicit fuel argument so that the kernel can evaluate it
  (the fuel `n + 1` always dominates the number of loop iterations, which is
  at most the number of base-128 digits of `n`);
* the prost-generated structural decoder for the two message schemas is not
  part of the repository's sources, so it is modelled from the spec
  (see `decodeVarint`, `skipField`, `decodeInnerGo`, `decodePreKeyGo`);
* fallible operations return `Option` / `Except`; a slice-index panic is
  modelled as `none`.
-/

namespace Vodozemac

/-- A single octet, the element type of every wire buffer. -/
abbrev Byte := Fin 256

/-- Truncation of a natural number to an octet (`n as u8` in the source). -/
def byte (n : Nat) : Byte := ⟨n % 256, Nat.mod_lt n (by norm_num)⟩

/-- `Mac::TRUNCATED_LEN` from the cipher module: the MAC tag length. -/
def MacTruncatedLen : Nat := 8

/-- `Curve25519PublicKey::KEY_LENGTH`: the public-key length. -/
def KeyLength : Nat := 32

/-- Most-significant byte, == 0x80 (the `MSB` constant of the source). -/
def MSB : Nat := 128

/-- Loop body of `required_encoded_space_unsigned`: `while v > 0 { logcounter += 1;
v >>= 7 }`, with a fuel argument bounding the number of iterations. -/
def reqLoopGo : Nat → Nat → Nat → Nat
  | 0, _, logcounter => logcounter
  | fuel + 1, v, logcounter =>
    if v = 0 then logcounter else reqLoopGo fuel (v >>> 7) (logcounter + 1)

/-- How many bytes an integer uses when being encoded as a VarInt
(`required_encoded_space_unsigned` in the source).  The loop strictly
decreases `v`, so fuel `v + 1` is always enough. -/
def required_encoded_space_unsigned (v : Nat) : Nat :=
  if v = 0 then 1 else reqLoopGo (v + 1) v 0

/-- The loop of `<u64 as Encode>::encode`: `while n >= 0x80 { v[i] = MSB | (n as u8);
i += 1; n >>= 7 }; v[i] = n as u8`.  Each iteration emits the next output byte,
so the recursion produces the bytes in the order the loop writes them; the fuel
argument bounds the number of iterations and strictly dominates `n`. -/
def encodeGo : Nat → Nat → List Byte
  | 0, _ => []
  | fuel + 1, n =>
    if n < 128 then [byte n]
    else byte (MSB ||| n % 256) :: encodeGo fuel (n >>> 7)

/-- `Encode::encode` for unsigned integers (`impl Encode for u64`, also used for
`usize` and `u32` after widening): the little-endian base-128 varint encoding. -/
def encode (n : Nat) : List Byte := encodeGo (n + 1) n

/-- Modelled from the spec: the varint decoder of the generic structured codec
(prost's `decode_varint`, not part of this repository).  Reads continuation
bytes little-endian, 7 value bits per byte; fails on a truncated buffer or when
the varint exceeds the integer width (more than `fuel` bytes, 10 at call
sites). -/
def decodeVarint : Nat → List Byte → Option (Nat × List Byte)
  | _, [] => none
  | 0, _ :: _ => none
  | fuel + 1, b :: rest =>
    if b.val < 128 then some (b.val, rest)
    else
      match decodeVarint fuel rest with
      | none => none
      | some (value, r) => some ((b.val - 128) + 128 * value, r)

/-- Modelled from the spec: skipping an unknown tagged field, by wire type
(0 = varint, 1 = fixed 64-bit, 2 = length-delimited, 5 = fixed 32-bit);
any other wire type is malformed. -/
def skipField (wireType : Nat) (l : List Byte) : Option (List Byte) :=
  if wireType = 0 then
    match decodeVarint 10 l with
    | none => none
    | some (_, r) => some r
  else if wireType = 1 then
    if 8 ≤ l.length then some (l.drop 8) else none
  else if wireType = 2 then
    match decodeVarint 10 l with
    | none => none
    | some (n, r) => if n ≤ r.length then some (r.drop n) else none
  else if wireType = 5 then
    if 4 ≤ l.length then some (l.drop 4) else none
  else none

/-- The normal-message body schema (`struct InnerMessage`): field 1 the ratchet
key (bytes), field 2 the chain index (uint64), field 4 the ciphertext (bytes). -/
structure InnerMessage where
  ratchet_key : List Byte
  chain_index : Nat
  ciphertext : List Byte
  deriving DecidableEq, Repr

/-- The pre-key body schema (`struct InnerPreKeyMessage`): fields 1-4 are the
one-time key, base key, identity key and embedded message, all bytes. -/
structure InnerPreKeyMessage where
  one_time_key : List Byte
  base_key : List Byte
  identity_key : List Byte
  message : List Byte
  deriving DecidableEq, Repr

/-- Modelled from the spec: the structural decode loop for the normal-message
body.  Tag-length-value fields, last occurrence wins, unknown tags skipped,
absent fields keep their default; a known field with the wrong wire type is
malformed.  The `chain_index` value is reduced to the unsigned 64-bit width.
Fuel bounds the number of fields; every field consumes at least one byte, so
`l.length + 1` is always enough. -/
def decodeInnerGo : Nat → List Byte → InnerMessage → Option InnerMessage
  | 0, _, _ => none
  | _ + 1, [], m => some m
  | fuel + 1, b :: t, m =>
    match decodeVarint 10 (b :: t) with
    | none => none
    | some (tag, rest) =>
      let fieldNumber := tag / 8
      let wireType := tag % 8
      if fieldNumber = 0 then none
      else if fieldNumber = 1 then
        if wireType = 2 then
          match decodeVarint 10 rest with
          | none => none
          | some (len, r2) =>
            if len ≤ r2.length then
              decodeInnerGo fuel (r2.drop len) { m with ratchet_key := r2.take len }
            else none
        else none
      else if fieldNumber = 2 then
        if wireType = 0 then
          match decodeVarint 10 rest with
          | none => none
          | some (value, r2) =>
            decodeInnerGo fuel r2 { m with chain_index := value % 2 ^ 64 }
        else none
      else if fieldNumber = 4 then
        if wireType = 2 then
          match decodeVarint 10 rest with
          | none => none
          | some (len, r2) =>
            if len ≤ r2.length then
              decodeInnerGo fuel (r2.drop len) { m with ciphertext := r2.take len }
            else none
        else none
      else
        match skipField wireType rest with
        | none => none
        | some r2 => decodeInnerGo fuel r2 m

/-- Modelled from the spec: `InnerMessage::decode` (prost), starting from the
all-default message. -/
def InnerMessage.decode (l : List Byte) : Option InnerMessage :=
  decodeInnerGo (l.length + 1) l ⟨[], 0, []⟩

/-- Modelled from the spec: the structural decode loop for the pre-key body;
all four known fields are length-delimited byte fields. -/
def decodePreKeyGo : Nat → List Byte → InnerPreKeyMessage → Option InnerPreKeyMessage
  | 0, _, _ => none
  | _ + 1, [], m => some m
  | fuel + 1, b :: t, m =>
    match decodeVarint 10 (b :: t) with
    | none => none
    | some (tag, rest) =>
      let fieldNumber := tag / 8
      let wireType := tag % 8
      if fieldNumber = 0 then none
      else if fieldNumber ≤ 4 then
        if wireType = 2 then
          match decodeVarint 10 rest with
          | none => none
          | some (len, r2) =>
            if len ≤ r2.length then
              let v := r2.take len
              let m2 :=
                if fieldNumber = 1 then { m with one_time_key := v }
                else if fieldNumber = 2 then { m with base_key := v }
                else if fieldNumber = 3 then { m with identity_key := v }
                else { m with message := v }
              decodePreKeyGo fuel (r2.drop len) m2
            else none
        else none
      else
        match skipField wireType rest with
        | none => none
        | some r2 => decodePreKeyGo fuel r2 m

/-- Modelled from the spec: `InnerPreKeyMessage::decode` (prost), starting from
the all-default message. -/
def InnerPreKeyMessage.decode (l : List Byte) : Option InnerPreKeyMessage :=
  decodePreKeyGo (l.length + 1) l ⟨[], [], [], []⟩

/-- The result of `OlmMessage::decode` (`struct DecodedMessage`). -/
structure DecodedMessage where
  ratchet_key : List Byte
  chain_index : Nat
  ciphertext : List Byte
  mac : List Byte
  deriving DecidableEq, Repr

/-- The decode-error taxonomy (`enum DecodeError`); the payloads are the
numeric values the Rust variants carry.  `ProtoBufError` stands for any
structural failure of the generic codec. -/
inductive DecodeError where
  | MissingVersion
  | MessageToShort (actual : Nat)
  | InvalidVersion (expected actual : Nat)
  | InvalidKeyLength (expected actual : Nat)
  | InvalidMacLength (expected actual : Nat)
  | ProtoBufError
  deriving DecidableEq, Repr

namespace OlmMessage

/-- `OlmMessage::VERSION`. -/
def VERSION : Byte := byte 3

/-- `OlmMessage::RATCHET_TAG` (`b"\x0A"`). -/
def RATCHET_TAG : Byte := byte 0x0A

/-- `OlmMessage::INDEX_TAG` (`b"\x10"`). -/
def INDEX_TAG : Byte := byte 0x10

/-- `OlmMessage::CIPHER_TAG` (`b"\x22"`). -/
def CIPHER_TAG : Byte := byte 0x22

/-- `OlmMessage::as_payload_bytes`: `&self.inner[..end - 8]`.  When the buffer
is shorter than 8 bytes the index computation underflows and the slice
operation panics; the panic is modelled as `none`. -/
def as_payload_bytes (inner : List Byte) : Option (List Byte) :=
  if inner.length < 8 then none
  else some (inner.take (inner.length - 8))

/-- `OlmMessage::append_mac_bytes`: overwrite the trailing
`Mac::TRUNCATED_LEN` bytes in place with the truncated MAC.  As above, a
buffer shorter than the tag length would panic, modelled as `none`. -/
def append_mac_bytes (inner mac : List Byte) : Option (List Byte) :=
  if inner.length < MacTruncatedLen then none
  else some (inner.take (inner.length - MacTruncatedLen) ++ mac)

/-- `OlmMessage::from_parts_untyped`: hand-assembled concatenation of the
version byte, the three tagged fields (the chain index always written, even
when zero) and an 8-byte zero MAC placeholder. -/
def from_parts_untyped (ratchet_key : List Byte) (index : Nat)
    (ciphertext : List Byte) : List Byte :=
  [VERSION] ++ [RATCHET_TAG] ++ encode ratchet_key.length ++ ratchet_key
    ++ [INDEX_TAG] ++ encode index ++ [CIPHER_TAG] ++ encode ciphertext.length
    ++ ciphertext ++ List.replicate 8 (byte 0)

/-- `OlmMessage::decode`: version check, length floor, structural parse of the
bytes strictly between the version byte and the trailing MAC, then the
ratchet-key and MAC length validations. -/
def decode (inner : List Byte) : Except DecodeError DecodedMessage :=
  match inner with
  | [] => .error .MissingVersion
  | version :: _ =>
    if version ≠ VERSION then .error (.InvalidVersion VERSION.val version.val)
    else if inner.length < MacTruncatedLen + 2 then
      .error (.MessageToShort inner.length)
    else
      match InnerMessage.decode ((inner.take (inner.length - MacTruncatedLen)).drop 1) with
      | none => .error .ProtoBufError
      | some im =>
        let mac_slice := inner.drop (inner.length - MacTruncatedLen)
        if im.ratchet_key.length ≠ KeyLength then
          .error (.InvalidKeyLength KeyLength im.ratchet_key.length)
        else if mac_slice.length ≠ MacTruncatedLen then
          .error (.InvalidMacLength MacTruncatedLen mac_slice.length)
        else
          .ok ⟨im.ratchet_key, im.chain_index, im.ciphertext, mac_slice⟩

end OlmMessage

namespace PreKeyMessage

/-- `PreKeyMessage::VERSION`. -/
def VERSION : Byte := byte 3

/-- `PreKeyMessage::decode`: version check, structural parse of everything
after the version byte, then the three key-length validations in the order
they appear in the source (one-time key, identity key, base key). -/
def decode (inner : List Byte) :
    Except DecodeError (List Byte × List Byte × List Byte × List Byte) :=
  match inner with
  | [] => .error .MissingVersion
  | version :: _ =>
    if version ≠ VERSION then .error (.InvalidVersion VERSION.val version.val)
    else
      match InnerPreKeyMessage.decode (inner.drop 1) with
      | none => .error .ProtoBufError
      | some m =>
        if m.one_time_key.length ≠ KeyLength then
          .error (.InvalidKeyLength KeyLength m.one_time_key.length)
        else if m.identity_key.length ≠ KeyLength then
          .error (.InvalidKeyLength KeyLength m.identity_key.length)
        else if m.base_key.length ≠ KeyLength then
          .error (.InvalidKeyLength KeyLength m.base_key.length)
        else
          .ok (m.one_time_key, m.base_key, m.identity_key, m.message)

end PreKeyMessage

/-! ### Basic byte and varint lemmas -/

theorem byte_val (n : Nat) : (byte n).val = n % 256 := rfl

theorem byte_val_of_lt {n : Nat} (h : n < 256) : (byte n).val = n := by
  simp [byte_val, Nat.mod_eq_of_lt h]

set_option maxRecDepth 4096 in
theorem lor_small : ∀ m : Fin 256, MSB ||| m.val = 128 + m.val % 128 := by decide

theorem cont_byte_val (n : Nat) : (byte (MSB ||| n % 256)).val = 128 + n % 128 := by
  have h := lor_small ⟨n % 256, Nat.mod_lt n (by norm_num)⟩
  simp only at h
  have h2 : n % 256 % 128 = n % 128 := Nat.mod_mod_of_dvd n (by norm_num)
  rw [byte_val_of_lt (by omega), h, h2]

theorem shift7 (n : Nat) : n >>> 7 = n / 128 := by
  rw [Nat.shiftRight_eq_div_pow]

theorem div128_lt {n : Nat} (h : 128 ≤ n) : n / 128 < n :=
  Nat.div_lt_self (by omega) (by norm_num)

theorem encodeGo_congr : ∀ f g n, n < f → n < g → encodeGo f n = encodeGo g n := by
  intro f
  induction f with
  | zero => intro g n h; omega
  | succ f ih =>
    intro g n hf hg
    cases g with
    | zero => omega
    | succ g =>
      simp only [encodeGo]
      by_cases h : n < 128
      · simp [h]
      · simp only [h, if_false]
        have hd : n / 128 < n := div128_lt (by omega)
        rw [shift7]
        rw [ih g (n / 128) (by omega) (by omega)]

theorem encode_unfold (n : Nat) :
    encode n = if n < 128 then [byte n]
               else byte (MSB ||| n % 256) :: encode (n >>> 7) := by
  by_cases h : n < 128
  · simp [encode, encodeGo, h]
  · rw [if_neg h]
    have h1 : encode n = byte (MSB ||| n % 256) :: encodeGo n (n >>> 7) := by
      simp only [encode, encodeGo, h, if_false]
    have hd : n / 128 < n := div128_lt (by omega)
    rw [h1,
      encodeGo_congr n (n >>> 7 + 1) (n >>> 7) (by rw [shift7]; omega) (by omega)]
    rfl

theorem encode_ne_nil (n : Nat) : encode n ≠ [] := by
  rw [encode_unfold]
  by_cases h : n < 128 <;> simp [h]

theorem encode_length_pos (n : Nat) : 0 < (encode n).length := by
  have := encode_ne_nil n
  cases h : encode n with
  | nil => exact absurd h this
  | cons a l => simp

theorem decode_encode :
    ∀ n fuel t, (encode n).length ≤ fuel →
      decodeVarint fuel (encode n ++ t) = some (n, t) := by
  intro n
  induction n using Nat.strong_induction_on with
  | _ n ih =>
    intro fuel t hfuel
    rw [encode_unfold] at hfuel ⊢
    by_cases h : n < 128
    · simp only [h, if_true] at hfuel ⊢
      cases fuel with
      | zero => simp at hfuel
      | succ fuel =>
        simp only [List.cons_append, List.nil_append, decodeVarint,
          byte_val_of_lt (by omega : n < 256)]
        simp [h]
    · simp only [h, if_false] at hfuel ⊢
      cases fuel with
      | zero => simp at hfuel
      | succ fuel =>
        have hrec : decodeVarint fuel (encode (n >>> 7) ++ t) = some (n >>> 7, t) := by
          apply ih
          · rw [shift7]; exact div128_lt (by omega)
          · simp only [List.length_cons] at hfuel; omega
        have hge : ¬(128 + n % 128 < 128) := by omega
        simp only [List.cons_append, decodeVarint, cont_byte_val, hge, if_false,
          List.append_eq]
        rw [hrec]
        have heq : n % 128 + 128 * (n >>> 7) = n := by
          rw [shift7]
          have := Nat.mod_add_div n 128
          omega
        simp [heq]

theorem encode_length_le :
    ∀ n k, 0 < k → n < 128 ^ k → (encode n).length ≤ k := by
  intro n
  induction n using Nat.strong_induction_on with
  | _ n ih =>
    intro k hk hn
    rw [encode_unfold]
    by_cases h : n < 128
    · simp [h]; omega
    · simp only [h, if_false, List.length_cons]
      have hd : n / 128 < n := div128_lt (by omega)
      cases k with
      | zero => omega
      | succ k =>
        have hk1 : 0 < k := by
          by_contra hc
          have : k = 0 := by omega
          subst this
          simp at hn
          omega
        have hdi : n / 128 < 128 ^ k := by
          rw [Nat.div_lt_iff_lt_mul (by norm_num)]
          calc n < 128 ^ (k + 1) := hn
            _ = 128 ^ k * 128 := by ring
        have := ih (n / 128) hd k hk1 hdi
        rw [shift7]
        omega

theorem encode_length_le_ten {n : Nat} (h : n < 2 ^ 64) : (encode n).length ≤ 10 :=
  encode_length_le n 10 (by norm_num) (lt_trans h (by norm_num))

theorem encode_zero : encode 0 = [byte 0] := rfl

theorem encode_length_upper : ∀ n : Nat, n < 128 ^ (encode n).length := by
  intro n
  induction n using Nat.strong_induction_on with
  | _ n ih =>
    rw [encode_unfold]
    by_cases h : n < 128
    · simp [h]
    · simp only [h, if_false, List.length_cons]
      have hd : n / 128 < n := div128_lt (by omega)
      have := ih (n / 128) hd
      rw [shift7]
      have h2 : n < 128 * (n / 128) + 128 := by
        have := Nat.mod_add_div n 128
        have := Nat.mod_lt n (y := 128) (by norm_num)
        omega
      calc n < 128 * (n / 128) + 128 := h2
        _ = 128 * (n / 128 + 1) := by ring
        _ ≤ 128 * 128 ^ (encode (n / 128)).length := by
            have : n / 128 + 1 ≤ 128 ^ (encode (n / 128)).length := this
            exact Nat.mul_le_mul_left 128 this
        _ = 128 ^ ((encode (n / 128)).length + 1) := by ring

theorem encode_length_lower :
    ∀ n : Nat, n ≠ 0 → 128 ^ ((encode n).length - 1) ≤ n := by
  intro n
  induction n using Nat.strong_induction_on with
  | _ n ih =>
    intro hn
    rw [encode_unfold]
    by_cases h : n < 128
    · simp only [h, if_true, List.length_singleton]
      simpa using Nat.one_le_iff_ne_zero.mpr hn
    · simp only [h, if_false, List.length_cons]
      have hd : n / 128 < n := div128_lt (by omega)
      have hne : n / 128 ≠ 0 := by
        have : 1 ≤ n / 128 := (Nat.one_le_div_iff (by norm_num)).mpr (by omega)
        omega
      have hlow := ih (n / 128) hd hne
      have hpos := encode_length_pos (n / 128)
      rw [shift7]
      calc 128 ^ ((encode (n / 128)).length + 1 - 1)
            = 128 * 128 ^ ((encode (n / 128)).length - 1) := by
              rw [Nat.add_sub_cancel]
              rw [← pow_succ']
              congr 1
              omega
        _ ≤ 128 * (n / 128) := Nat.mul_le_mul_left 128 hlow
        _ ≤ n := Nat.mul_div_le n 128

theorem encode_getD_low :
    ∀ n i : Nat, ((encode n).getD i (byte 0)).val % 128 = n / 128 ^ i % 128 := by
  intro n
  induction n using Nat.strong_induction_on with
  | _ n ih =>
    intro i
    rw [encode_unfold]
    by_cases h : n < 128
    · simp only [h, if_true]
      cases i with
      | zero => simp [byte_val_of_lt (by omega : n < 256)]
      | succ i =>
        have : n / 128 ^ (i + 1) = 0 := by
          apply Nat.div_eq_of_lt
          calc n < 128 := h
            _ ≤ 128 ^ (i + 1) := Nat.le_self_pow (by omega) 128
        simp [List.getD, this, byte_val]
    · simp only [h, if_false]
      cases i with
      | zero => simp [cont_byte_val, Nat.add_mod_left]
      | succ i =>
        have hd : n / 128 < n := div128_lt (by omega)
        have := ih (n / 128) hd i
        simp only [List.getD_cons_succ]
        rw [shift7, this, Nat.div_div_eq_div_mul, ← pow_succ']

theorem encode_cont_bit :
    ∀ n i : Nat, i + 1 < (encode n).length → 128 ≤ ((encode n).getD i (byte 0)).val := by
  intro n
  induction n using Nat.strong_induction_on with
  | _ n ih =>
    intro i hi
    rw [encode_unfold] at hi ⊢
    by_cases h : n < 128
    · simp [h] at hi
    · simp only [h, if_false, List.length_cons] at hi ⊢
      cases i with
      | zero => simp [cont_byte_val]
      | succ i =>
        have hd : n / 128 < n := div128_lt (by omega)
        have := ih (n / 128) hd i (by rw [shift7] at hi; omega)
        simp only [List.getD_cons_succ]
        rw [shift7]
        exact this

theorem encode_last_clear :
    ∀ n i : Nat, i + 1 = (encode n).length → ((encode n).getD i (byte 0)).val < 128 := by
  intro n
  induction n using Nat.strong_induction_on with
  | _ n ih =>
    intro i hi
    rw [encode_unfold] at hi ⊢
    by_cases h : n < 128
    · simp only [h, if_true, List.length_singleton] at hi
      have : i = 0 := by omega
      subst this
      simp [byte_val_of_lt (by omega : n < 256), h]
    · simp only [h, if_false, List.length_cons] at hi ⊢
      cases i with
      | zero =>
        have := encode_length_pos (n >>> 7)
        omega
      | succ i =>
        have hd : n / 128 < n := div128_lt (by omega)
        have := ih (n / 128) hd i (by rw [shift7] at hi; omega)
        simp only [List.getD_cons_succ]
        rw [shift7]
        exact this

/-! ### The encode length agrees with `required_encoded_space_unsigned` -/

theorem reqLoopGo_congr :
    ∀ f g v c, v < f → v < g → reqLoopGo f v c = reqLoopGo g v c := by
  intro f
  induction f with
  | zero => intro g v c h; omega
  | succ f ih =>
    intro g v c hf hg
    cases g with
    | zero => omega
    | succ g =>
      simp only [reqLoopGo]
      by_cases h : v = 0
      · simp [h]
      · simp only [h, if_false]
        have hd : v / 128 < v := Nat.div_lt_self (by omega) (by norm_num)
        rw [shift7]
        exact ih g (v / 128) (c + 1) (by omega) (by omega)

theorem reqLoopGo_shift :
    ∀ f v c, reqLoopGo f v (c + 1) = reqLoopGo f v c + 1 := by
  intro f
  induction f with
  | zero => intro v c; simp [reqLoopGo]
  | succ f ih =>
    intro v c
    simp only [reqLoopGo]
    by_cases h : v = 0
    · simp [h]
    · simp only [h, if_false]
      exact ih (v >>> 7) (c + 1)

theorem required_space_unfold (v : Nat) (hv : v ≠ 0) :
    required_encoded_space_unsigned v =
      (if v >>> 7 = 0 then 0 else required_encoded_space_unsigned (v >>> 7)) + 1 := by
  unfold required_encoded_space_unsigned
  simp only [hv, if_false]
  have h1 : reqLoopGo (v + 1) v 0 = reqLoopGo v (v >>> 7) 1 := by
    simp [reqLoopGo, hv]
  rw [h1]
  by_cases h2 : v >>> 7 = 0
  · simp only [h2, if_true]
    cases v with
    | zero => omega
    | succ v => simp [reqLoopGo]
  · simp only [h2, if_false]
    have hd : v / 128 < v := Nat.div_lt_self (by omega) (by norm_num)
    have hc : reqLoopGo v (v >>> 7) 1 = reqLoopGo (v >>> 7 + 1) (v >>> 7) 1 := by
      apply reqLoopGo_congr <;> rw [shift7] <;> omega
    rw [hc, reqLoopGo_shift (v >>> 7 + 1) (v >>> 7) 0]

theorem encode_length_eq_required :
    ∀ n : Nat, (encode n).length = required_encoded_space_unsigned n := by
  intro n
  induction n using Nat.strong_induction_on with
  | _ n ih =>
    by_cases h0 : n = 0
    · subst h0; rfl
    · rw [encode_unfold, required_space_unfold n h0]
      by_cases h : n < 128
      · have hz : n >>> 7 = 0 := by
          rw [shift7]; exact Nat.div_eq_of_lt h
        simp [h, hz]
      · have hd : n / 128 < n := div128_lt (by omega)
        have hz : ¬(n >>> 7 = 0) := by
          rw [shift7]
          have : 1 ≤ n / 128 := (Nat.one_le_div_iff (by norm_num)).mpr (by omega)
          omega
        simp only [h, if_false, hz, List.length_cons]
        rw [shift7] at hz ⊢
        rw [ih (n / 128) hd]

/-! ### Running the structural decoder over a hand-assembled body -/

theorem RATCHET_TAG_val : OlmMessage.RATCHET_TAG.val = 10 := rfl

theorem INDEX_TAG_val : OlmMessage.INDEX_TAG.val = 16 := rfl

theorem CIPHER_TAG_val : OlmMessage.CIPHER_TAG.val = 34 := rfl

theorem decodeVarint_ten_small (b : Byte) (t : List Byte) (hb : b.val < 128) :
    decodeVarint 10 (b :: t) = some (b.val, t) := by
  show decodeVarint (9 + 1) (b :: t) = some (b.val, t)
  simp [decodeVarint, hb]

theorem decode_encode_ten {n : Nat} (t : List Byte) (h : (encode n).length ≤ 10) :
    decodeVarint 10 (encode n ++ t) = some (n, t) :=
  decode_encode n 10 t h

theorem take_append_of_length {α : Type} (k t : List α) (n : Nat)
    (h : k.length = n) : (k ++ t).take n = k := by
  subst h
  simp

theorem drop_append_of_length {α : Type} (k t : List α) (n : Nat)
    (h : k.length = n) : (k ++ t).drop n = t := by
  subst h
  simp

theorem innerGo_key_step (fuel n : Nat) (k t : List Byte) (m : InnerMessage)
    (hk : k.length = n) (hlen : (encode n).length ≤ 10) :
    decodeInnerGo (fuel + 1) (OlmMessage.RATCHET_TAG :: (encode n ++ (k ++ t))) m =
      decodeInnerGo fuel t { m with ratchet_key := k } := by
  have htag := decodeVarint_ten_small OlmMessage.RATCHET_TAG (encode n ++ (k ++ t))
    (by rw [RATCHET_TAG_val]; omega)
  have hlenv := decode_encode_ten (n := n) (k ++ t) hlen
  have hle : n ≤ (k ++ t).length := by simp [List.length_append]; omega
  simp only [decodeInnerGo, htag, RATCHET_TAG_val, hlenv, hle, if_true,
    take_append_of_length k t n hk, drop_append_of_length k t n hk]
  norm_num

theorem innerGo_index_step (fuel i : Nat) (t : List Byte) (m : InnerMessage)
    (hlen : (encode i).length ≤ 10) :
    decodeInnerGo (fuel + 1) (OlmMessage.INDEX_TAG :: (encode i ++ t)) m =
      decodeInnerGo fuel t { m with chain_index := i % 2 ^ 64 } := by
  have htag := decodeVarint_ten_small OlmMessage.INDEX_TAG (encode i ++ t)
    (by rw [INDEX_TAG_val]; omega)
  have hlenv := decode_encode_ten (n := i) t hlen
  simp only [decodeInnerGo, htag, INDEX_TAG_val, hlenv]
  norm_num

theorem innerGo_cipher_step (fuel n : Nat) (k : List Byte) (m : InnerMessage)
    (hk : k.length = n) (hlen : (encode n).length ≤ 10) :
    decodeInnerGo (fuel + 1) (OlmMessage.CIPHER_TAG :: (encode n ++ k)) m =
      decodeInnerGo fuel [] { m with ciphertext := k } := by
  have htag := decodeVarint_ten_small OlmMessage.CIPHER_TAG (encode n ++ k)
    (by rw [CIPHER_TAG_val]; omega)
  have hlenv := decode_encode_ten (n := n) k hlen
  have hle : n ≤ k.length := by omega
  have htake : k.take n = k := by subst hk; simp
  have hdrop : k.drop n = [] := by subst hk; simp
  simp only [decodeInnerGo, htag, CIPHER_TAG_val, hlenv, hle, if_true, htake, hdrop]
  norm_num

theorem innerGo_nil (fuel : Nat) (m : InnerMessage) :
    decodeInnerGo (fuel + 1) [] m = some m := rfl

/-- The body that `from_parts_untyped` places between the version byte and the
MAC placeholder. -/
def bodyFor (ratchet_key : List Byte) (index : Nat) (ciphertext : List Byte) :
    List Byte :=
  OlmMessage.RATCHET_TAG ::
    (encode ratchet_key.length ++ (ratchet_key ++
      OlmMessage.INDEX_TAG ::
        (encode index ++
          OlmMessage.CIPHER_TAG :: (encode ciphertext.length ++ ciphertext))))

theorem from_parts_eq (rk ct : List Byte) (i : Nat) :
    OlmMessage.from_parts_untyped rk i ct =
      (OlmMessage.VERSION :: bodyFor rk i ct) ++ List.replicate 8 (byte 0) := by
  simp [OlmMessage.from_parts_untyped, bodyFor]

theorem inner_decode_body (rk ct : List Byte) (i : Nat) (hrk : rk.length = 32)
    (hi10 : (encode i).length ≤ 10) (hc10 : (encode ct.length).length ≤ 10) :
    InnerMessage.decode (bodyFor rk i ct) = some ⟨rk, i % 2 ^ 64, ct⟩ := by
  unfold InnerMessage.decode
  obtain ⟨f, hf⟩ : ∃ f, (bodyFor rk i ct).length + 1 = f + 1 + 1 + 1 + 1 := by
    refine ⟨(bodyFor rk i ct).length - 3, ?_⟩
    have h32 : 32 ≤ (bodyFor rk i ct).length := by
      simp only [bodyFor, List.length_cons, List.length_append, hrk]
      omega
    omega
  rw [hf]
  unfold bodyFor
  rw [innerGo_key_step (f + 1 + 1 + 1) rk.length rk _ _ rfl (by rw [hrk]; decide)]
  rw [innerGo_index_step (f + 1 + 1) i _ _ hi10]
  rw [innerGo_cipher_step (f + 1) ct.length ct _ rfl hc10]
  rfl

theorem as_payload_on_padded (X R : List Byte) (hR : R.length = 8) :
    OlmMessage.as_payload_bytes (X ++ R) = some X := by
  unfold OlmMessage.as_payload_bytes
  have hlen : (X ++ R).length = X.length + 8 := by simp [hR]
  rw [hlen]
  have h1 : ¬(X.length + 8 < 8) := by omega
  have h2 : X.length + 8 - 8 = X.length := by omega
  rw [if_neg h1, h2, List.take_left]

theorem append_mac_on_padded (X R mac : List Byte) (hR : R.length = 8) :
    OlmMessage.append_mac_bytes (X ++ R) mac = some (X ++ mac) := by
  unfold OlmMessage.append_mac_bytes MacTruncatedLen
  have hlen : (X ++ R).length = X.length + 8 := by simp [hR]
  rw [hlen]
  have h1 : ¬(X.length + 8 < 8) := by omega
  have h2 : X.length + 8 - 8 = X.length := by omega
  rw [if_neg h1, h2, List.take_left]

theorem decode_payload_append (rk ct m8 : List Byte) (i : Nat)
    (hrk : rk.length = 32) (hi : i < 2 ^ 64) (hct : ct.length < 2 ^ 64)
    (hm8 : m8.length = 8) :
    OlmMessage.decode ((OlmMessage.VERSION :: bodyFor rk i ct) ++ m8) =
      .ok ⟨rk, i, ct, m8⟩ := by
  rw [List.cons_append]
  simp only [OlmMessage.decode]
  have hv : ¬(OlmMessage.VERSION ≠ OlmMessage.VERSION) := by simp
  rw [if_neg hv]
  have hL : (OlmMessage.VERSION :: (bodyFor rk i ct ++ m8)).length =
      (bodyFor rk i ct).length + 9 := by
    simp [hm8]
  rw [hL]
  unfold MacTruncatedLen
  have hshort : ¬((bodyFor rk i ct).length + 9 < 8 + 2) := by
    have h32 : 32 ≤ (bodyFor rk i ct).length := by
      simp only [bodyFor, List.length_cons, List.length_append, hrk]
      omega
    omega
  rw [if_neg hshort]
  have hsub : (bodyFor rk i ct).length + 9 - 8 = (bodyFor rk i ct).length + 1 := by
    omega
  rw [hsub, List.take_succ_cons, List.drop_succ_cons, List.drop_zero,
    take_append_of_length _ _ _ rfl, List.drop_succ_cons,
    drop_append_of_length _ _ _ rfl]
  rw [inner_decode_body rk ct i hrk (encode_length_le_ten hi)
    (encode_length_le_ten hct)]
  have hkey : ¬(rk.length ≠ KeyLength) := by simp [KeyLength, hrk]
  have hmac : ¬(m8.length ≠ 8) := by omega
  simp only [hkey, hmac, if_neg, ite_false, ite_true, if_false]
  rw [Nat.mod_eq_of_lt hi]

/-! ### Case analysis of the validation chains -/

theorem olm_decode_invalid_key (l : List Byte) (m : InnerMessage)
    (hhead : l.head? = some (byte 3)) (hlen : 10 ≤ l.length)
    (hdec : InnerMessage.decode ((l.take (l.length - 8)).drop 1) = some m)
    (hkey : m.ratchet_key.length ≠ 32) :
    OlmMessage.decode l = .error (.InvalidKeyLength 32 m.ratchet_key.length) := by
  cases l with
  | nil => simp at hhead
  | cons a t =>
    simp only [List.head?_cons, Option.some.injEq] at hhead
    subst hhead
    simp only [OlmMessage.decode, MacTruncatedLen, KeyLength]
    have hv : ¬((byte 3 : Byte) ≠ OlmMessage.VERSION) := by
      simp [OlmMessage.VERSION]
    rw [if_neg hv]
    have hns : ¬((byte 3 :: t).length < 8 + 2) := by
      simp only [List.length_cons]
      simp only [List.length_cons] at hlen
      omega
    rw [if_neg hns]
    rw [hdec]
    simp [hkey]

theorem prekey_decode_cases (l : List Byte) (m : InnerPreKeyMessage)
    (hhead : l.head? = some (byte 3))
    (hdec : InnerPreKeyMessage.decode (l.drop 1) = some m) :
    (m.one_time_key.length ≠ 32 →
      PreKeyMessage.decode l = .error (.InvalidKeyLength 32 m.one_time_key.length)) ∧
    (m.one_time_key.length = 32 → m.identity_key.length ≠ 32 →
      PreKeyMessage.decode l = .error (.InvalidKeyLength 32 m.identity_key.length)) ∧
    (m.one_time_key.length = 32 → m.identity_key.length = 32 →
      m.base_key.length ≠ 32 →
      PreKeyMessage.decode l = .error (.InvalidKeyLength 32 m.base_key.length)) ∧
    (m.one_time_key.length = 32 → m.identity_key.length = 32 →
      m.base_key.length = 32 →
      PreKeyMessage.decode l =
        .ok (m.one_time_key, m.base_key, m.identity_key, m.message)) := by
  cases l with
  | nil => simp at hhead
  | cons a t =>
    simp only [List.head?_cons, Option.some.injEq] at hhead
    subst hhead
    simp only [PreKeyMessage.decode, KeyLength]
    have hv : ¬((byte 3 : Byte) ≠ PreKeyMessage.VERSION) := by
      simp [PreKeyMessage.VERSION]
    rw [if_neg hv, hdec]
    refine ⟨?_, ?_, ?_, ?_⟩
    · intro h1
      simp [h1]
    · intro h1 h2
      simp [h1, h2]
    · intro h1 h2 h3
      simp [h1, h2, h3]
    · intro h1 h2 h3
      simp [h1, h2, h3]

/-! ### Claim C1: construct, append a MAC, decode round-trip -/

/-- C1: for every 32-byte ratchet public key, every unsigned 64-bit chain
index, and every ciphertext byte buffer, constructing an OlmMessage via
from_parts, then overwriting the trailing placeholder with any 8-byte MAC,
then decoding, succeeds and yields a DecodedMessage whose ratchet_key,
chain_index, and ciphertext equal the construction inputs and whose mac
equals the appended 8 bytes. -/
theorem claim_olm_roundtrip (rk ct mac : List Byte) (i : Nat)
    (hrk : rk.length = 32) (hi : i < 2 ^ 64) (hct : ct.length < 2 ^ 64)
    (hmac : mac.length = 8) :
    ∃ full,
      OlmMessage.append_mac_bytes (OlmMessage.from_parts_untyped rk i ct) mac =
        some full ∧
      OlmMessage.decode full = .ok ⟨rk, i, ct, mac⟩ := by
  refine ⟨(OlmMessage.VERSION :: bodyFor rk i ct) ++ mac, ?_, ?_⟩
  · rw [from_parts_eq]
    exact append_mac_on_padded _ _ mac (by simp)
  · exact decode_payload_append rk ct mac i hrk hi hct hmac

/-- Witness for C1 at a concrete key, index, ciphertext and MAC. -/
theorem claim_olm_roundtrip_witness :
    (List.replicate 32 (byte 1)).length = 32 ∧ (5 : Nat) < 2 ^ 64 ∧
    ([byte 9] : List Byte).length < 2 ^ 64 ∧ (List.replicate 8 (byte 2)).length = 8 ∧
    ∃ full,
      OlmMessage.append_mac_bytes
        (OlmMessage.from_parts_untyped (List.replicate 32 (byte 1)) 5 [byte 9])
        (List.replicate 8 (byte 2)) = some full ∧
      OlmMessage.decode full =
        .ok ⟨List.replicate 32 (byte 1), 5, [byte 9], List.replicate 8 (byte 2)⟩ :=
  ⟨by decide, by norm_num, by decide, by decide,
    claim_olm_roundtrip _ _ _ _ (by decide) (by norm_num) (by decide) (by decide)⟩

/-! ### Claim C2: the worked example from the module test -/

/-- ASCII bytes of the string used as the ratchet-key stand-in in the test. -/
def ratchetKeyAscii : List Byte :=
  [byte 114, byte 97, byte 116, byte 99, byte 104,
   byte 101, byte 116, byte 107, byte 101, byte 121]

/-- ASCII bytes of the ciphertext string of the test. -/
def ciphertextAscii : List Byte :=
  [byte 99, byte 105, byte 112, byte 104, byte 101,
   byte 114, byte 116, byte 101, byte 120, byte 116]

/-- ASCII bytes of the 8-byte MAC stand-in of the test. -/
def macAscii : List Byte :=
  [byte 77, byte 65, byte 67, byte 72, byte 69, byte 82, byte 69, byte 69]

/-- The payload bytes the worked example expects:
0x03 0x0A 0x0A, the key bytes, 0x10 0x01 0x22 0x0A, the ciphertext bytes. -/
def workedPayload : List Byte :=
  byte 3 :: byte 10 :: byte 10 ::
    (ratchetKeyAscii ++ byte 16 :: byte 1 :: byte 34 :: byte 10 :: ciphertextAscii)

/-- C2: constructing a normal message from ratchet_key bytes "ratchetkey",
chain_index 1, and ciphertext bytes "ciphertext" produces exactly the payload
bytes 0x03 0x0A 0x0A "ratchetkey" 0x10 0x01 0x22 0x0A "ciphertext"; after
appending the MAC bytes "MACHEREE" the full buffer is that payload
immediately followed by "MACHEREE", and the payload bytes returned after the
append equal those returned before it. -/
theorem claim_worked_example :
    OlmMessage.as_payload_bytes
        (OlmMessage.from_parts_untyped ratchetKeyAscii 1 ciphertextAscii) =
      some workedPayload ∧
    OlmMessage.append_mac_bytes
        (OlmMessage.from_parts_untyped ratchetKeyAscii 1 ciphertextAscii)
        macAscii =
      some (workedPayload ++ macAscii) ∧
    OlmMessage.as_payload_bytes (workedPayload ++ macAscii) = some workedPayload := by
  refine ⟨?_, ?_, ?_⟩ <;> rfl

/-! ### Claim C3: a zero chain index is still written and decodes to zero -/

/-- C3: for every ratchet key and ciphertext, constructing a normal message
with chain_index = 0 still writes the chain-index field into the wire bytes
(the field is not omitted), and decoding that message yields chain_index = 0. -/
theorem claim_zero_index (rk ct : List Byte) (hrk : rk.length = 32)
    (hct : ct.length < 2 ^ 64) :
    (∃ pre post, OlmMessage.from_parts_untyped rk 0 ct =
      pre ++ OlmMessage.INDEX_TAG :: byte 0 :: post) ∧
    ∃ d, OlmMessage.decode (OlmMessage.from_parts_untyped rk 0 ct) = .ok d ∧
      d.chain_index = 0 := by
  constructor
  · refine ⟨[OlmMessage.VERSION] ++ [OlmMessage.RATCHET_TAG] ++ encode rk.length ++ rk,
      OlmMessage.CIPHER_TAG :: (encode ct.length ++ ct ++ List.replicate 8 (byte 0)), ?_⟩
    simp [OlmMessage.from_parts_untyped, encode_zero]
  · refine ⟨⟨rk, 0, ct, List.replicate 8 (byte 0)⟩, ?_, rfl⟩
    rw [from_parts_eq]
    exact decode_payload_append rk ct _ 0 hrk (by norm_num) hct (by simp)

/-- Witness for C3 at a concrete key and ciphertext. -/
theorem claim_zero_index_witness :
    (List.replicate 32 (byte 1)).length = 32 ∧
    (([byte 6] : List Byte)).length < 2 ^ 64 ∧
    ((∃ pre post, OlmMessage.from_parts_untyped (List.replicate 32 (byte 1)) 0 [byte 6] =
        pre ++ OlmMessage.INDEX_TAG :: byte 0 :: post) ∧
     ∃ d, OlmMessage.decode
        (OlmMessage.from_parts_untyped (List.replicate 32 (byte 1)) 0 [byte 6]) = .ok d ∧
        d.chain_index = 0) :=
  ⟨by decide, by decide, claim_zero_index _ _ (by decide) (by decide)⟩

/-! ### Claim C4: the varint encoder is the minimal continuation-bit encoding -/

/-- C4: for every unsigned 64-bit integer n, the varint encoder produces the
minimal-length encoding in which each output byte carries 7 value bits in its
low bits, every byte except the last has its high (continuation) bit set, and
the last byte has it clear; in particular the encoding of 0 is exactly one
zero byte.  Minimality is expressed by the two power bounds, which pin the
length to the base-128 digit count, and the output length equals
required_encoded_space_unsigned. -/
theorem claim_varint_minimal (n : Nat) (h : n < 2 ^ 64) :
    encode n ≠ [] ∧
    (n = 0 → encode n = [byte 0]) ∧
    (∀ i, i < (encode n).length →
      ((encode n).getD i (byte 0)).val % 128 = n / 128 ^ i % 128) ∧
    (∀ i, i + 1 < (encode n).length → 128 ≤ ((encode n).getD i (byte 0)).val) ∧
    (∀ i, i + 1 = (encode n).length → ((encode n).getD i (byte 0)).val < 128) ∧
    n < 128 ^ (encode n).length ∧
    (n ≠ 0 → 128 ^ ((encode n).length - 1) ≤ n) ∧
    (encode n).length = required_encoded_space_unsigned n := by
  refine ⟨encode_ne_nil n, ?_, ?_, ?_, ?_, encode_length_upper n,
    encode_length_lower n, encode_length_eq_required n⟩
  · intro h0
    subst h0
    rfl
  · intro i _
    exact encode_getD_low n i
  · intro i hi
    exact encode_cont_bit n i hi
  · intro i hi
    exact encode_last_clear n i hi

/-- Witness for C4 at n = 300 (a two-byte encoding). -/
theorem claim_varint_minimal_witness :
    (300 : Nat) < 2 ^ 64 ∧
    (encode 300 ≠ [] ∧
     ((300 : Nat) = 0 → encode 300 = [byte 0]) ∧
     (∀ i, i < (encode 300).length →
       ((encode 300).getD i (byte 0)).val % 128 = 300 / 128 ^ i % 128) ∧
     (∀ i, i + 1 < (encode 300).length → 128 ≤ ((encode 300).getD i (byte 0)).val) ∧
     (∀ i, i + 1 = (encode 300).length → ((encode 300).getD i (byte 0)).val < 128) ∧
     (300 : Nat) < 128 ^ (encode 300).length ∧
     ((300 : Nat) ≠ 0 → 128 ^ ((encode 300).length - 1) ≤ 300) ∧
     (encode 300).length = required_encoded_space_unsigned 300) :=
  ⟨by norm_num, claim_varint_minimal 300 (by norm_num)⟩

/-! ### Claim C5: payload and MAC never overlap -/

/-- C5: for every OlmMessage constructed via from_parts, as_payload_bytes
returns exactly the buffer minus its trailing 8 bytes, both before and after
the MAC is appended; append_mac overwrites only the trailing 8 bytes in
place, leaving the buffer's length and every byte before the trailing 8
unchanged. -/
theorem claim_payload_mac_separation (rk ct mac : List Byte) (i : Nat)
    (hmac : mac.length = 8) :
    ∃ P, OlmMessage.from_parts_untyped rk i ct = P ++ List.replicate 8 (byte 0) ∧
      OlmMessage.as_payload_bytes (OlmMessage.from_parts_untyped rk i ct) = some P ∧
      OlmMessage.append_mac_bytes (OlmMessage.from_parts_untyped rk i ct) mac =
        some (P ++ mac) ∧
      OlmMessage.as_payload_bytes (P ++ mac) = some P ∧
      (P ++ mac).length = (OlmMessage.from_parts_untyped rk i ct).length := by
  refine ⟨OlmMessage.VERSION :: bodyFor rk i ct, from_parts_eq rk ct i, ?_, ?_, ?_, ?_⟩
  · rw [from_parts_eq]
    exact as_payload_on_padded _ _ (by simp)
  · rw [from_parts_eq]
    exact append_mac_on_padded _ _ _ (by simp)
  · exact as_payload_on_padded _ _ hmac
  · rw [from_parts_eq]
    simp [hmac]

/-- Witness for C5 at concrete parts and a concrete MAC. -/
theorem claim_payload_mac_separation_witness :
    (List.replicate 8 (byte 4)).length = 8 ∧
    ∃ P, OlmMessage.from_parts_untyped [byte 1] 0 [byte 2] =
        P ++ List.replicate 8 (byte 0) ∧
      OlmMessage.as_payload_bytes (OlmMessage.from_parts_untyped [byte 1] 0 [byte 2]) =
        some P ∧
      OlmMessage.append_mac_bytes (OlmMessage.from_parts_untyped [byte 1] 0 [byte 2])
          (List.replicate 8 (byte 4)) = some (P ++ List.replicate 8 (byte 4)) ∧
      OlmMessage.as_payload_bytes (P ++ List.replicate 8 (byte 4)) = some P ∧
      (P ++ List.replicate 8 (byte 4)).length =
        (OlmMessage.from_parts_untyped [byte 1] 0 [byte 2]).length :=
  ⟨by decide, claim_payload_mac_separation [byte 1] [byte 2] _ 0 (by decide)⟩

/-! ### Claim C6: version byte validation -/

/-- C6: for every non-empty byte buffer whose first byte differs from 3,
decoding it as an OlmMessage or as a PreKeyMessage fails with an
InvalidVersion error carrying expected value 3 and the actual first byte; for
the empty buffer, both decodes fail with MissingVersion. -/
theorem claim_version_rejection (l : List Byte) (b : Byte)
    (hhead : l.head? = some b) (hb : b.val ≠ 3) :
    OlmMessage.decode l = .error (.InvalidVersion 3 b.val) ∧
    PreKeyMessage.decode l = .error (.InvalidVersion 3 b.val) ∧
    OlmMessage.decode [] = .error .MissingVersion ∧
    PreKeyMessage.decode [] = .error .MissingVersion := by
  cases l with
  | nil => simp at hhead
  | cons a t =>
    simp only [List.head?_cons, Option.some.injEq] at hhead
    subst hhead
    have hv1 : a ≠ OlmMessage.VERSION := by
      intro hc
      exact hb (by rw [hc]; rfl)
    have hv2 : a ≠ PreKeyMessage.VERSION := by
      intro hc
      exact hb (by rw [hc]; rfl)
    refine ⟨?_, ?_, rfl, rfl⟩
    · simp only [OlmMessage.decode]
      rw [if_pos hv1]
      rfl
    · simp only [PreKeyMessage.decode]
      rw [if_pos hv2]
      rfl

/-- Witness for C6 at a concrete buffer starting with byte 5. -/
theorem claim_version_rejection_witness :
    ([byte 5, byte 0] : List Byte).head? = some (byte 5) ∧ (byte 5).val ≠ 3 ∧
    (OlmMessage.decode [byte 5, byte 0] = .error (.InvalidVersion 3 (byte 5).val) ∧
     PreKeyMessage.decode [byte 5, byte 0] = .error (.InvalidVersion 3 (byte 5).val) ∧
     OlmMessage.decode [] = .error .MissingVersion ∧
     PreKeyMessage.decode [] = .error .MissingVersion) :=
  ⟨rfl, by decide, claim_version_rejection [byte 5, byte 0] (byte 5) rfl (by decide)⟩

/-! ### Claim C7: the length floor (corrected) -/

/-- C7 counterexample: the claim demands MessageToShort for every buffer
shorter than 10 bytes, but the version check runs first: the one-byte buffer
[5] is shorter than 10 bytes and decodes to InvalidVersion, not
MessageToShort. -/
theorem claim_length_floor_counterexample :
    ([byte 5] : List Byte).length < 10 ∧
    OlmMessage.decode [byte 5] = .error (.InvalidVersion 3 5) ∧
    DecodeError.InvalidVersion 3 5 ≠
      DecodeError.MessageToShort ([byte 5] : List Byte).length := by
  exact ⟨by decide, rfl, by decide⟩

/-- C7 amended: decoding any normal-message buffer whose first byte is the
version constant 3 and whose length is below 10 fails with the too-short
error carrying the buffer's actual length.  (The unamended claim fails on
buffers that are empty or start with a byte other than 3, where MissingVersion
or InvalidVersion is returned instead.) -/
theorem claim_length_floor_amended (l : List Byte)
    (hhead : l.head? = some (byte 3)) (hlen : l.length < 10) :
    OlmMessage.decode l = .error (.MessageToShort l.length) := by
  cases l with
  | nil => simp at hhead
  | cons a t =>
    simp only [List.head?_cons, Option.some.injEq] at hhead
    subst hhead
    simp only [OlmMessage.decode, MacTruncatedLen]
    have hv : ¬((byte 3 : Byte) ≠ OlmMessage.VERSION) := by
      simp [OlmMessage.VERSION]
    rw [if_neg hv]
    rw [if_pos (by omega : (byte 3 :: t).length < 8 + 2)]

/-- Witness for the amended C7 at the one-byte buffer [3]. -/
theorem claim_length_floor_amended_witness :
    ([byte 3] : List Byte).head? = some (byte 3) ∧
    ([byte 3] : List Byte).length < 10 ∧
    OlmMessage.decode [byte 3] = .error (.MessageToShort ([byte 3] : List Byte).length) :=
  ⟨rfl, by decide, claim_length_floor_amended [byte 3] rfl (by decide)⟩

/-! ### Claim C8: pre-key validation order (corrected) -/

/-- A pre-key wire buffer whose one-time key is 32 bytes, whose identity key
is 1 byte (field tag 0x1A) and whose base key is absent (hence empty). -/
def prekeyOrderBuf : List Byte :=
  byte 3 :: byte 10 :: byte 32 ::
    (List.replicate 32 (byte 7) ++ [byte 26, byte 1, byte 9])

/-- C8 counterexample: on a buffer whose structural parse yields a 32-byte
one-time key, an absent (0-byte) base key and a 1-byte identity key, the claim
(order one-time, base, identity) predicts InvalidKeyLength 32 0 for the base
key, but the code checks the identity key before the base key and returns
InvalidKeyLength 32 1. -/
theorem claim_prekey_order_counterexample :
    InnerPreKeyMessage.decode (prekeyOrderBuf.drop 1) =
      some ⟨List.replicate 32 (byte 7), [], [byte 9], []⟩ ∧
    PreKeyMessage.decode prekeyOrderBuf = .error (.InvalidKeyLength 32 1) ∧
    DecodeError.InvalidKeyLength 32 1 ≠ DecodeError.InvalidKeyLength 32 0 := by
  exact ⟨rfl, rfl, by decide⟩

/-- C8 amended: in PreKeyMessage decoding, after structural parsing succeeds,
the three key-length validations are performed in the order one-time-key,
then identity-key, then base-key, short-circuiting at the first field whose
length is not 32 bytes; the resulting InvalidKeyLength error names the length
of that first failing field. -/
theorem claim_prekey_order_amended (l : List Byte) (m : InnerPreKeyMessage)
    (hhead : l.head? = some (byte 3))
    (hdec : InnerPreKeyMessage.decode (l.drop 1) = some m) :
    (m.one_time_key.length ≠ 32 →
      PreKeyMessage.decode l = .error (.InvalidKeyLength 32 m.one_time_key.length)) ∧
    (m.one_time_key.length = 32 → m.identity_key.length ≠ 32 →
      PreKeyMessage.decode l = .error (.InvalidKeyLength 32 m.identity_key.length)) ∧
    (m.one_time_key.length = 32 → m.identity_key.length = 32 →
      m.base_key.length ≠ 32 →
      PreKeyMessage.decode l = .error (.InvalidKeyLength 32 m.base_key.length)) ∧
    (m.one_time_key.length = 32 → m.identity_key.length = 32 →
      m.base_key.length = 32 →
      PreKeyMessage.decode l =
        .ok (m.one_time_key, m.base_key, m.identity_key, m.message)) :=
  prekey_decode_cases l m hhead hdec

/-- Witness for the amended C8 on the counterexample buffer: the identity-key
check fires before the base-key check. -/
theorem claim_prekey_order_amended_witness :
    PreKeyMessage.decode prekeyOrderBuf = .error (.InvalidKeyLength 32 1) :=
  (claim_prekey_order_amended prekeyOrderBuf
      ⟨List.replicate 32 (byte 7), [], [byte 9], []⟩ rfl rfl).2.1
    (by decide) (by decide)

/-! ### Claim C9: key-length enforcement for both message kinds -/

/-- C9: for both OlmMessage and PreKeyMessage decoding, whenever a
structurally parsed key field has any length other than 32 bytes (and every
validation the decoder performs before that field's check passed), decode
fails with InvalidKeyLength whose expected component is 32 and whose actual
component is that field's length. -/
theorem claim_key_length_enforcement :
    (∀ (l : List Byte) (m : InnerMessage), l.head? = some (byte 3) →
      10 ≤ l.length →
      InnerMessage.decode ((l.take (l.length - 8)).drop 1) = some m →
      m.ratchet_key.length ≠ 32 →
      OlmMessage.decode l = .error (.InvalidKeyLength 32 m.ratchet_key.length)) ∧
    (∀ (l : List Byte) (m : InnerPreKeyMessage), l.head? = some (byte 3) →
      InnerPreKeyMessage.decode (l.drop 1) = some m →
      ((m.one_time_key.length ≠ 32 →
        PreKeyMessage.decode l =
          .error (.InvalidKeyLength 32 m.one_time_key.length)) ∧
       (m.one_time_key.length = 32 → m.identity_key.length ≠ 32 →
        PreKeyMessage.decode l =
          .error (.InvalidKeyLength 32 m.identity_key.length)) ∧
       (m.one_time_key.length = 32 → m.identity_key.length = 32 →
        m.base_key.length ≠ 32 →
        PreKeyMessage.decode l =
          .error (.InvalidKeyLength 32 m.base_key.length)))) := by
  constructor
  · intro l m hhead hlen hdec hkey
    exact olm_decode_invalid_key l m hhead hlen hdec hkey
  · intro l m hhead hdec
    have h := prekey_decode_cases l m hhead hdec
    exact ⟨h.1, h.2.1, h.2.2.1⟩

/-- A normal-message wire buffer with version 3, an empty ratchet-key field
and an 8-byte tail. -/
def olmShortKeyBuf : List Byte :=
  byte 3 :: byte 10 :: byte 0 :: List.replicate 8 (byte 0)

/-- Witness for C9: an empty ratchet key and an empty one-time key are both
reported as InvalidKeyLength 32 0. -/
theorem claim_key_length_enforcement_witness :
    OlmMessage.decode olmShortKeyBuf = .error (.InvalidKeyLength 32 0) ∧
    PreKeyMessage.decode [byte 3] = .error (.InvalidKeyLength 32 0) :=
  ⟨claim_key_length_enforcement.1 olmShortKeyBuf ⟨[], 0, []⟩
      (by decide) (by decide) (by decide) (by decide),
    (claim_key_length_enforcement.2 [byte 3] ⟨[], [], [], []⟩
        (by decide) (by decide)).1 (by decide)⟩

/-! ### Claim C10: as_payload_bytes on a short raw buffer -/

/-- C10: as_payload_bytes is only defined for an OlmMessage whose buffer
holds at least 8 bytes: since wrapping raw bytes performs no validation,
calling as_payload_bytes on a buffer shorter than 8 bytes underflows the
end-minus-8 index computation and panics (modelled as none) instead of
returning a slice; on buffers of at least 8 bytes it returns the buffer minus
its trailing 8 bytes. -/
theorem claim_payload_underflow (l : List Byte) :
    (l.length < 8 → OlmMessage.as_payload_bytes l = none) ∧
    (8 ≤ l.length →
      OlmMessage.as_payload_bytes l = some (l.take (l.length - 8))) := by
  constructor
  · intro h
    simp [OlmMessage.as_payload_bytes, h]
  · intro h
    simp [OlmMessage.as_payload_bytes, Nat.not_lt.mpr h]

/-- Witness for C10 at a concrete two-byte buffer. -/
theorem claim_payload_underflow_witness :
    ([byte 1, byte 2] : List Byte).length < 8 ∧
    OlmMessage.as_payload_bytes [byte 1, byte 2] = none :=
  ⟨by decide, (claim_payload_underflow [byte 1, byte 2]).1 (by decide)⟩

end Vodozemac
